import Mathlib

/-
Verification of the graph-talk core against its specification.

This file shallowly embeds the Python sources:
  * src/utils.py   - DictChangeOperation / DictChangeGroup (transaction log)
  * src/gt/core.py - Condition, Handler, Process family, ParsingProcess,
                     ParsingRelation, SelectiveNotion, LoopRelation, Graph

Python dictionaries are modelled as association lists observed only through
lookup; machine-level details (object identity) are modelled with numeric ids.
-/

/- ===================== Definitions ===================== -/

/- ---- src/utils.py : DictChangeOperation and DictChangeGroup ---- -/

/-- A Python dict with string keys and integer values, as an association list
observed through `dlookup`. -/
abbrev Dict := List (String × Int)

/-- First-match lookup, the observation of a `Dict`. -/
def dlookup : Dict → String → Option Int
  | [], _ => none
  | (k, v) :: t, key => if k = key then some v else dlookup t key

/-- `del d[key]` : remove the binding of `key`. -/
def derase (key : String) (d : Dict) : Dict :=
  d.filter (fun p => p.1 ≠ key)

/-- `d[key] = v` : (re)bind `key` to `v`.  The position of the binding is not
observable through `dlookup`, so a canonical prepend is used. -/
def dset (key : String) (v : Int) (d : Dict) : Dict :=
  (key, v) :: derase key d

/-- `DictChangeOperation.Operations = ('add', 'set', 'delete')`. -/
inductive OpType
  | add
  | set
  | delete
deriving DecidableEq, Repr

/-- A `DictChangeOperation` over the single tracked dict: its type, key,
new value (`_value`) and recorded old value (`_old_value`, `None` before
`do` ran). -/
structure Op where
  type : OpType
  key : String
  value : Int
  old : Option Int
deriving DecidableEq, Repr

/-- A freshly constructed operation (`_old_value = None`). -/
def mkOp (t : OpType) (k : String) (v : Int) : Op := ⟨t, k, v, none⟩

/-- `DictChangeOperation.do`.  A `set` on an absent key first mutates itself
into an `add` (that case is inlined here as the leading branch); `set` and
`delete` record the old value before assigning/deleting.  `delete` of an
absent key raises `KeyError`, modelled as `none`. -/
def doOp (op : Op) (d : Dict) : Option (Op × Dict) :=
  if op.type = OpType.set ∧ dlookup d op.key = none then
    some ({ op with type := OpType.add }, dset op.key op.value d)
  else
    match op.type with
    | OpType.add => some (op, dset op.key op.value d)
    | OpType.set =>
      match dlookup d op.key with
      | some ov => some ({ op with old := some ov }, dset op.key op.value d)
      | none => none
    | OpType.delete =>
      match dlookup d op.key with
      | some ov => some ({ op with old := some ov }, derase op.key d)
      | none => none

/-- `DictChangeOperation.undo` : an `add` deletes its key, a done `set`/`delete`
restores the recorded old value (always `some` for an operation that went
through `doOp`; the `getD 0` default is unreachable in that case). -/
def undoOp (op : Op) (d : Dict) : Dict :=
  match op.type with
  | OpType.add => derase op.key d
  | _ => dset op.key (op.old.getD 0) d

/-- `DictChangeOperation.merge` test: both operations are `set` on the same key
of the same dict.  The merge is attempted before the new operation's `do`, so
the new operation's type is its constructed type. -/
def canMerge (top newOp : Op) : Bool :=
  top.type = OpType.set ∧ newOp.type = OpType.set ∧ top.key = newOp.key

/-- `DictChangeGroup.add` with `do = True`: merge into the top of the stack if
possible (the top keeps its recorded old value and takes the new value),
otherwise append the done operation; the new operation's `do` always runs. -/
def groupAdd (stack : List Op) (op : Op) (d : Dict) : Option (List Op × Dict) :=
  match doOp op d with
  | none => none
  | some (op2, d2) =>
    match stack.getLast? with
    | some top =>
      if canMerge top op then
        some (stack.dropLast ++ [{ top with value := op.value }], d2)
      else some (stack ++ [op2], d2)
    | none => some ([op2], d2)

/-- An edit handed to `DictChangeGroup.add`: operation type, key, value. -/
abbrev Edit := OpType × String × Int

/-- Build a transaction group by feeding edits to `DictChangeGroup.add`. -/
def runGroup (d : Dict) (stack : List Op) : List Edit → Option (List Op × Dict)
  | [] => some (stack, d)
  | (t, k, v) :: es =>
    match groupAdd stack (mkOp t k v) d with
    | some (s2, d2) => runGroup d2 s2 es
    | none => none

/-- Undo a list of operations front to back. -/
def undoList : List Op → Dict → Dict
  | [], d => d
  | op :: t, d => undoList t (undoOp op d)

/-- `DictChangeGroup.undo` : undo every stacked operation in reverse order. -/
def undoGroup (stack : List Op) (d : Dict) : Dict :=
  undoList stack.reverse d

/-- Validity of an edit sequence for exact rollback: every `delete` must hit a
present key (otherwise `do` raises) and every `add` must hit an absent key
(an `add` on a present key succeeds but its undo deletes the key instead of
restoring the old value). -/
def editsOkFrom (d : Dict) (stack : List Op) : List Edit → Bool
  | [] => true
  | (t, k, v) :: es =>
    (decide (t ≠ OpType.add) || (dlookup d k).isNone) &&
    (match groupAdd stack (mkOp t k v) d with
     | some (s2, d2) => editsOkFrom d2 s2 es
     | none => false)

/- ---- src/gt/core.py : ParsingProcess.do_turn (direction tokens) ---- -/

/-- `Element.BACKWARD` after module initialisation:
`[PREVIOUS] + [ERROR, BREAK, CONTINUE]`. -/
def BACKWARD : List String := ["previous", "error", "break", "continue"]

/-- `ParsingProcess.do_turn`: pop the direction token from the head of the
message, clear the whole pending message if the token is backward, and set the
process query to the token.  Returns (new message, new query). -/
def do_turn (msg : List String) (query : String) : List String × String :=
  match msg with
  | [] => (msg, query)
  | t :: rest => ((if BACKWARD.contains t then [] else rest), t)

/- ---- src/gt/core.py : ParsingRelation.on_error ---- -/

/-- `Element.FORWARD = [NEXT]`. -/
def FORWARD : List String := ["next"]

/-- `Element.is_forward`: non-empty message whose head is a forward token. -/
def is_forward (msg : List String) : Bool :=
  match msg with
  | [] => false
  | t :: _ => FORWARD.contains t

/-- `ParsingRelation.on_error`, the relation's unknown-event fallback: answer
the error token only when the relation is not optional and the unhandled
message is a forward one; otherwise answer `None`. -/
def on_error (opt : Bool) (msg : List String) : Option String :=
  if !opt && is_forward msg then some "error" else none

/- ---- src/gt/core.py : Graph.root setter ---- -/

/-- A graph element as seen by the root setter: its identity, its owner (a
graph id) and whether `isinstance(value, Notion)` holds. -/
structure GNode where
  id : Nat
  owner : Option Nat
  isNotion : Bool
deriving DecidableEq, Repr

/-- `self._root == value` : default (identity) equality on elements,
`None == None` for two `None`s. -/
def root_eq (root : Option Nat) (value : Option GNode) : Bool :=
  match root, value with
  | none, none => true
  | some r, some v => r = v.id
  | _, _ => false

/-- The `Graph.root` setter.  `none` models the raised `ValueError`;
`some r` models a successful assignment leaving `_root = r`.
Source: `if (self._root == value) or (value and (value.owner != self or not
isinstance(value, Notion))): raise ValueError(...)`. -/
def set_root (g : Nat) (root : Option Nat) (value : Option GNode) : Option (Option Nat) :=
  if root_eq root value ||
      (match value with
       | some v => decide (v.owner ≠ some g) || !v.isNotion
       | none => false) then
    none
  else
    match value with
    | some v => some (some v.id)
    | none => some none

/- ---- src/gt/core.py : Handler.update_events / Handler.handle ---- -/

/-- One registered condition/event pair of a `Handler`: the condition's tags,
its rank on a message (the first component of `check`), and the event,
abstracted over the message type `μ`. -/
structure HPair (μ : Type) where
  tags : List String
  rank : μ → Int
  id : Nat

/-- `Handler.update_events`: keep the pairs whose condition tags are a subset
of the handler's active tags, preserving registration order. -/
def update_events {μ : Type} (tags : List String) (events : List (HPair μ)) :
    List (HPair μ) :=
  events.filter (fun e => e.tags.all (fun t => tags.contains t))

/-- One step of the best-event search in `Handler.handle`:
`if c_rank > rank: rank, check, event_found = c_rank, c_check, event_access`. -/
def selStep {μ : Type} (m : μ) (acc : Int × Option (HPair μ)) (e : HPair μ) :
    Int × Option (HPair μ) :=
  if e.rank m > acc.1 then (e.rank m, some e) else acc

/-- The search loop of `Handler.handle` over the active events, starting from
`NO_HANDLE`'s rank `-1` and no event. -/
def handleSelect {μ : Type} (active : List (HPair μ)) (m : μ) :
    Int × Option (HPair μ) :=
  active.foldl (selStep m) (-1, none)

/-- Outcome of `Handler.handle`: a selected event ran, the unknown fallback
ran, or the no-match sentinel (`NO_HANDLE`, result `False`) was returned. -/
inductive HRes (μ : Type)
  | ran (e : HPair μ)
  | ranUnknown
  | noMatch

/-- `Handler.handle`: filter by tags, search for the best event, run it when
its rank is non-negative, otherwise fall back to the unknown event or the
no-match sentinel. -/
def handle {μ : Type} (tags : List String) (events : List (HPair μ))
    (hasUnknown : Bool) (m : μ) : HRes μ :=
  let p := handleSelect (update_events tags events) m
  if 0 ≤ p.1 then
    match p.2 with
    | some e => HRes.ran e
    | none => HRes.noMatch
  else if hasUnknown then HRes.ranUnknown else HRes.noMatch

/- ---- src/gt/core.py : LoopRelation ---- -/

/-- Integers extended with the `float('inf')` used by `LoopRelation`. -/
inductive EInt
  | fin (n : Int)
  | inf
deriving DecidableEq, Repr

/-- `<` on bounds. -/
def EInt.ltB : EInt → EInt → Bool
  | .fin a, .fin b => a < b
  | .fin _, .inf => true
  | .inf, _ => false

/-- `≤` on bounds. -/
def EInt.leB : EInt → EInt → Bool
  | .fin a, .fin b => a ≤ b
  | _, .inf => true
  | .inf, .fin _ => false

/-- The shapes of a general `LoopRelation` condition: an exact count
(`Condition.NUMBER`), a two-element numeric range with optional sides
(`Condition.LIST`), the wildcards `'*'`, `'?'`, `'+'`, or literal `True`. -/
inductive LoopCond
  | exact (n : Int)
  | range (lo hi : Option Int)
  | star
  | quest
  | plus
  | infinite
deriving DecidableEq, Repr

/-- `LoopRelation.is_wildcard`. -/
def is_wildcard : LoopCond → Bool
  | .star | .quest | .plus => true
  | _ => false

/-- `LoopRelation.is_numeric`: a number, or a two-element list whose sides are
`None` or numbers. -/
def is_numeric : LoopCond → Bool
  | .exact _ => true
  | .range _ _ => true
  | _ => false

/-- `condition_access.spec == Condition.LIST`. -/
def is_list_cond : LoopCond → Bool
  | .range _ _ => true
  | _ => false

/-- `LoopRelation.is_infinite`. -/
def is_infinite : LoopCond → Bool
  | .infinite => true
  | _ => false

/-- `LoopRelation.is_flexible`: numeric with list spec, or a wildcard. -/
def is_flexible (c : LoopCond) : Bool :=
  (is_numeric c && is_list_cond c) || is_wildcard c

/-- Python truthiness of an optional number (`None` and `0` are falsy), used
by `get_bounds` on the sides of a range. -/
def truthy : Option Int → Bool
  | none => false
  | some n => n ≠ 0

/-- `LoopRelation.get_bounds`: defaults `(0, inf)`; an exact count `n` gives
`(1, n)`; a range keeps a side's default when that side is falsy; `'+'` raises
the lower bound, `'?'` lowers the upper; `True` sets `lower = upper = inf`. -/
def get_bounds : LoopCond → EInt × EInt
  | .exact n => (.fin 1, .fin n)
  | .range lo hi =>
    ((if truthy lo then .fin (lo.getD 0) else .fin 0),
     (if truthy hi then .fin (hi.getD 0) else .inf))
  | .star => (.fin 0, .inf)
  | .quest => (.fin 0, .fin 1)
  | .plus => (.fin 1, .inf)
  | .infinite => (.inf, .inf)

/-- The command tokens appearing in `LoopRelation` replies. -/
inductive LTok
  | set_iter (i : Int)
  | push_ctx
  | pop_ctx
  | forget_ctx
  | clear_state
  | next_tok
  | obj_tok
  | self_tok
deriving DecidableEq, Repr

/-- `LoopRelation.get_next_iteration_reply`: store the iteration counter; a
flexible loop forgets the previous snapshot (from the second iteration on) and
pushes a fresh one; then try the object and come back. -/
def get_next_iteration_reply (c : LoopCond) (i : Int) : List LTok :=
  let reply := [LTok.set_iter i]
  let reply := if is_flexible c then
      (if i ≠ 1 then LTok.forget_ctx :: reply else reply) ++ [LTok.push_ctx]
    else reply
  reply ++ [LTok.obj_tok, LTok.self_tok]

/-- `LoopRelation.do_error_general`, the reply to an `error` while looping at
iteration `i`: a flexible loop rolls back to the last good iteration and turns
forward when `lower < i <= upper`, otherwise forgets the snapshot (leaving the
error direction in force); the state is always cleared. -/
def do_error_general (c : LoopCond) (i : Int) : List LTok :=
  let b := get_bounds c
  let reply : List LTok :=
    if is_flexible c then
      if b.1.ltB (EInt.fin i) && (EInt.fin i).leB b.2 then
        [LTok.next_tok, LTok.pop_ctx]
      else [LTok.forget_ctx]
    else []
  reply ++ [LTok.clear_state]

/-- The claim's reading of "flexible": a numeric range with an open side, or a
wildcard. -/
def claim_flexible : LoopCond → Bool
  | .range lo hi => lo.isNone || hi.isNone
  | c => is_wildcard c

/- ---- src/gt/core.py : SelectiveNotion ---- -/

/-- The result of querying one owned relation with the rank answer mode: the
error token or some other value. -/
inductive RRes
  | errorTok
  | val (n : Nat)
deriving DecidableEq, Repr

/-- One owned relation of a `SelectiveNotion`, abstracted to the
`(result, rank)` pair its call returns. -/
structure SRel where
  res : RRes
  rank : Int
deriving DecidableEq, Repr

/-- An entry of `best_cases`: a candidate's query result, or the designated
default relation. -/
inductive BCase
  | caseRes (r : RRes)
  | defaultCase
deriving DecidableEq, Repr

/-- The collection loop of `SelectiveNotion.get_best_cases`: every owned
relation except the designated default (identified by its position) whose
result is not the error token and whose rank is non-negative, in registration
order. -/
def collect (rels : List SRel) (dflt : Option Nat) : List (RRes × Int) :=
  (rels.enum).filterMap (fun p =>
    if some p.1 = dflt then none
    else if p.2.res ≠ RRes.errorTok ∧ 0 ≤ p.2.rank then some (p.2.res, p.2.rank)
    else none)

/-- The running `max_len` of `get_best_cases`, starting from `-1`. -/
def max_len (cs : List (RRes × Int)) : Int :=
  cs.foldl (fun m c => max m c.2) (-1)

/-- `SelectiveNotion.get_best_cases`: the collected results whose rank equals
`max_len`; if none and a default is set, the default relation alone. -/
def get_best_cases (rels : List SRel) (dflt : Option Nat) : List BCase :=
  let cs := collect rels dflt
  let best := (cs.filter (fun c => c.2 = max_len cs)).map (fun c => BCase.caseRes c.1)
  if best.isEmpty && dflt.isSome then [BCase.defaultCase] else best

/-- The best cases as the specification words them: evaluate every owned
relation's condition except the designated default, keep exactly the non-error
results tied at the maximum rank `≥ 0` in registration order, and fall back to
the default relation (if set) when that subset is empty. -/
def best_cases_spec (rels : List SRel) (dflt : Option Nat) : List BCase :=
  let elig := (rels.enum).filterMap (fun p =>
    if some p.1 = dflt then none
    else if p.2.res ≠ RRes.errorTok ∧ 0 ≤ p.2.rank then some (p.2.res, p.2.rank)
    else none)
  match (elig.map Prod.snd).max? with
  | none => if dflt.isSome then [BCase.defaultCase] else []
  | some M => (elig.filter (fun c => c.2 = M)).map (fun c => BCase.caseRes c.1)

/-- Outcome of `SelectiveNotion.do_forward`. -/
inductive SReply
  | noRel
  | singleRel
  | oneCase (c : BCase)
  | multiCase (c : BCase) (rest : List BCase)
  | errorTok
deriving DecidableEq, Repr

/-- `SelectiveNotion.do_forward`: with no relation the reply is `None`; with a
single relation it is that relation; with more than one, the best cases decide:
none means the error token, a single case is taken directly, several cases are
tried with context push and stored state. -/
def do_forward (rels : List SRel) (dflt : Option Nat) : SReply :=
  match rels with
  | [] => SReply.noRel
  | [_] => SReply.singleRel
  | _ =>
    match get_best_cases rels dflt with
    | [] => SReply.errorTok
    | [c] => SReply.oneCase c
    | c :: cs => SReply.multiCase c cs

/- ---- src/gt/core.py : Process.handle step loop ---- -/

mutual

/-- A Python value as it appears as a dispatch result or a message token:
string, boolean, number, `None`, list/tuple, or a graph element (by id). -/
inductive RVal
  | str (s : String)
  | boolv (b : Bool)
  | num (n : Int)
  | none_
  | listv (xs : RList)
  | elem (id : Nat)

/-- The payload of a Python list/tuple value. -/
inductive RList
  | nil
  | cons (x : RVal) (xs : RList)

end

/-- Flatten a list payload into a Lean list of values. -/
def RList.toList : RList → List RVal
  | .nil => []
  | .cons x xs => x :: xs.toList

mutual

/-- Python `==` on the modelled values: `True == 1`, `False == 0`, lists
compare elementwise, elements by identity, and `None` only to itself. -/
def pyEq : RVal → RVal → Bool
  | RVal.str a, RVal.str b => a == b
  | RVal.boolv a, RVal.boolv b => a == b
  | RVal.num a, RVal.num b => a == b
  | RVal.boolv a, RVal.num b => (if a then (1 : Int) else 0) == b
  | RVal.num a, RVal.boolv b => a == (if b then (1 : Int) else 0)
  | RVal.none_, RVal.none_ => true
  | RVal.elem a, RVal.elem b => a == b
  | RVal.listv a, RVal.listv b => pyEqList a b
  | _, _ => false

/-- Python `==` on list payloads. -/
def pyEqList : RList → RList → Bool
  | RList.nil, RList.nil => true
  | RList.cons a as, RList.cons b bs => pyEq a b && pyEqList as bs
  | _, _ => false

end

/-- `result[0] in (self.OK, self.STOP, False)` under Python equality. -/
def pyTerminal (r : RVal) : Bool :=
  pyEq r (RVal.str "ok") || pyEq r (RVal.str "stop") || pyEq r (RVal.boolv false)

/-- `result[0] in (None, True)` under Python equality. -/
def pyContinue (r : RVal) : Bool :=
  pyEq r RVal.none_ || pyEq r (RVal.boolv true)

/-- `Process.set_message(result, insert=True)`: a list result is spliced onto
the front of the current message, any other result is prepended as a single
token. -/
def set_message_insert (r : RVal) (msg : List RVal) : List RVal :=
  (match r with
   | RVal.listv xs => xs.toList
   | _ => [r]) ++ msg

/-- One step of the `Process.handle` loop on dispatch result `r`:
`Sum.inl r` means the loop breaks with result `r`; `Sum.inr m` means the loop
continues with message `m`. -/
def handle_step (r : RVal) (msg : List RVal) : Sum RVal (List RVal) :=
  if pyTerminal r then Sum.inl r
  else if pyContinue r then Sum.inr msg
  else Sum.inr (set_message_insert r msg)

/- ---- src/gt/core.py : on_handle of the Process family ---- -/

/-- A queue item of a `Process`: the current element (by id) and the pending
message. -/
structure Frame where
  current : Option Nat
  message : List RVal

/-- The traversal context, a Python dict observed through lookup. -/
abbrev Ctx := List (String × RVal)

/-- `context[k] = v` on the modelled context. -/
def cset (k : String) (v : RVal) (c : Ctx) : Ctx :=
  (k, v) :: c.filter (fun p => p.1 ≠ k)

/-- `self.context.update(context)`. -/
def ctx_update (base upd : Ctx) : Ctx :=
  upd.foldl (fun acc p => cset p.1 p.2 acc) base

/-- The state of a `StatefulProcess` relevant to `on_handle`: the frame queue,
the context, the transaction-group stack (`_context_stack`, groups opaque) and
the per-element state store (`states`). -/
structure PState where
  queue : List Frame
  context : Ctx
  context_stack : List Nat
  states : List (Nat × RVal)

/-- `Process.to_queue`: update the top frame in place when its message is
empty, otherwise push a new frame; the current element is kept when not
explicitly given (`cur = none` keeps it; `cur = some c` sets it to `c`). -/
def to_queue (s : PState) (cur : Option (Option Nat)) (msg : List RVal) : PState :=
  match s.queue.getLast? with
  | none => { s with queue := [{ current := cur.getD none, message := msg }] }
  | some top =>
    if top.message.isEmpty then
      { s with queue :=
          s.queue.dropLast ++ [{ current := cur.getD top.current, message := msg }] }
    else
      { s with queue :=
          s.queue ++ [{ current := cur.getD top.current, message := msg }] }

/-- `Process.on_handle`: a message starting with the `new` token strips the
token, replaces the whole queue with one fresh frame and replaces the context;
any other message is queued and the context merged. -/
def process_on_handle (message : List RVal) (ctx : Ctx) (s : PState) : PState :=
  match message with
  | RVal.str "new" :: rest =>
    let s2 := to_queue s (some none) rest
    { s2 with
      queue := (match s2.queue.getLast? with
                | some f => [f]
                | none => []),
      context := ctx }
  | _ =>
    let s2 := to_queue s none message
    { s2 with context := ctx_update s2.context ctx }

/-- `StackingProcess.on_handle`: the base behaviour, then
`del self._context_stack[:]` unconditionally. -/
def stacking_on_handle (m : List RVal) (ctx : Ctx) (s : PState) : PState :=
  { process_on_handle m ctx s with context_stack := [] }

/-- `StatefulProcess.on_handle`: the stacking behaviour, then
`self.states.clear()` unconditionally. -/
def stateful_on_handle (m : List RVal) (ctx : Ctx) (s : PState) : PState :=
  { stacking_on_handle m ctx s with states := [] }

/- ---- src/gt/core.py : Condition.check_string ---- -/

/-- `str.upper`, applied when `ignore_case` is set. -/
def upperIf (ic : Bool) (l : List Char) : List Char :=
  if ic then l.map Char.toUpper else l

/-- The stored pattern after `Condition.setup`: uppercased when `ignore_case`
is set (`self._value = self._value.upper()`). -/
def stored (p : List Char) (ic : Bool) : List Char := upperIf ic p

/-- A message token as `check_string` sees it; slicing a non-string head
raises `TypeError`, which the source swallows into no-match. -/
inductive MTok
  | strTok (s : List Char)
  | intTok (n : Int)
  | boolTok (b : Bool)
  | noneTok
deriving DecidableEq, Repr

/-- `Condition.check_string`: slice the head of the message to the pattern's
length (`self._value_len`, measured before uppercasing), uppercase the slice
when `ignore_case` is set, and compare with the stored pattern; a match returns
`(pattern length, stored pattern)`, anything else `NO_CHECK = (-1, None)`. -/
def check_string (p : List Char) (ic : Bool) (msg : List MTok) :
    Int × Option (List Char) :=
  match msg with
  | MTok.strTok s :: _ =>
    let m0 := s.take p.length
    let m0 := upperIf ic m0
    if m0 = stored p ic then ((p.length : Int), some (stored p ic))
    else (-1, none)
  | _ => (-1, none)

/-- Does the message's head fail to be a string (or the message to be
non-empty)? -/
def head_not_string : List MTok → Bool
  | MTok.strTok _ :: _ => false
  | _ => true

/- ===================== Theorems ===================== -/

/- ---- C6 : ParsingProcess.do_turn ---- -/

/-- C6 counterexample: the direction token `next` at the head of the message
is consumed and sets the traversal direction, but the pending message is NOT
emptied — `do_turn` on `["next", "x"]` leaves `["x"]` pending, refuting the
claim that each of `next`/`error`/`break`/`continue` replaces the entire
pending message. -/
theorem C6_counterexample :
    do_turn ["next", "x"] "next" = (["x"], "next") ∧
    (do_turn ["next", "x"] "next").1 ≠ [] := by
  refine ⟨rfl, ?_⟩
  decide

/-- C6 (amended): the backward direction tokens `error`, `break` and
`continue` are consumed, set the traversal direction and empty the entire
pending message; the forward token `next` is consumed and sets the direction
but leaves the rest of the message pending. -/
theorem C6_theorem (rest : List String) (q t : String)
    (ht : t ∈ ["error", "break", "continue"]) :
    do_turn (t :: rest) q = ([], t) ∧
    do_turn ("next" :: rest) q = (rest, "next") := by
  constructor
  · fin_cases ht <;> rfl
  · rfl

/-- C6 witness: `do_turn` evaluated on a backward token and on `next`. -/
theorem C6_witness :
    do_turn ["break", "x"] "next" = ([], "break") ∧
    do_turn ["next", "x"] "next" = (["x"], "next") :=
  C6_theorem ["x"] "next" "break" (by decide)

/- ---- C7 : ParsingRelation.on_error ---- -/

/-- C7 counterexample: a non-optional `ParsingRelation`'s unknown-event
fallback answers `None`, not the error token, on an unhandled message that is
not a forward one (here the message `["error"]`), refuting the claim that any
unhandled message is answered with `error`. -/
theorem C7_counterexample :
    on_error false ["error"] = none ∧ on_error false ["error"] ≠ some "error" := by
  decide

/-- C7 (amended): a non-optional `ParsingRelation`'s fallback answers the
error token exactly on unhandled forward messages; an optional relation's
fallback never answers `error`, and no fallback answers `error` on a
non-forward message. -/
theorem C7_theorem (msg msgN : List String) (b : Bool)
    (hf : is_forward msg = true) (hn : is_forward msgN = false) :
    on_error false msg = some "error" ∧
    on_error true msg = none ∧
    on_error b msgN = none := by
  refine ⟨?_, ?_, ?_⟩
  · simp [on_error, hf]
  · simp [on_error]
  · simp [on_error, hn]

/-- C7 witness: the fallback on a forward and a non-forward message. -/
theorem C7_witness :
    on_error false ["next"] = some "error" ∧
    on_error true ["next"] = none ∧
    on_error true ["error"] = none :=
  C7_theorem ["next"] ["error"] true (by decide) (by decide)

/- ---- C9 : on_handle of StackingProcess / StatefulProcess ---- -/

/-- C9: every top-level handle call of a `StackingProcess` discards all open
transaction groups, and a `StatefulProcess` additionally discards all
per-element state slots, at the start of the call — for every incoming
message, whether or not it begins with the `new` token, and from every prior
state. -/
theorem C9_theorem (m : List RVal) (ctx : Ctx) (s : PState) :
    (stacking_on_handle m ctx s).context_stack = [] ∧
    (stateful_on_handle m ctx s).context_stack = [] ∧
    (stateful_on_handle m ctx s).states = [] :=
  ⟨rfl, rfl, rfl⟩

/-- C9 witness: a continuing (non-`new`) call on a process with an open group
and a stored state still starts with empty stacks. -/
theorem C9_witness :
    (stacking_on_handle [RVal.str "next"] []
      ⟨[⟨none, [RVal.str "q"]⟩], [], [7], [(1, RVal.num 2)]⟩).context_stack = [] ∧
    (stateful_on_handle [RVal.str "next"] []
      ⟨[⟨none, [RVal.str "q"]⟩], [], [7], [(1, RVal.num 2)]⟩).context_stack = [] ∧
    (stateful_on_handle [RVal.str "next"] []
      ⟨[⟨none, [RVal.str "q"]⟩], [], [7], [(1, RVal.num 2)]⟩).states = [] :=
  C9_theorem [RVal.str "next"] [] ⟨[⟨none, [RVal.str "q"]⟩], [], [7], [(1, RVal.num 2)]⟩

/- ---- C10 : Graph.root setter ---- -/

/-- C10 counterexample: assigning `None` to `Graph.root` while the current
root is a notion succeeds (clearing the root) instead of raising, refuting the
claim that assignment succeeds only for a different Notion owned by the
graph. -/
theorem C10_counterexample :
    set_root 0 (some 1) none = some none ∧ set_root 0 (some 1) none ≠ none := by
  decide

/-- C10 (amended): the root setter raises `ValueError` exactly when the new
value equals the current root (including `None` over `None`), or when it is a
non-`None` value that is not a Notion owned by this graph; assigning a
different Notion owned by the graph succeeds, and so does assigning `None`
while the root is non-`None` (which clears the root). -/
theorem C10_theorem (g : Nat) (root : Option Nat) (v : Option GNode)
    (n2 n4 : GNode)
    (h1 : root_eq root v = true)
    (h2 : n2.owner ≠ some g ∨ n2.isNotion = false)
    (h3 : root_eq root none = false)
    (h4 : root_eq root (some n4) = false)
    (h5 : n4.owner = some g) (h6 : n4.isNotion = true) :
    set_root g root v = none ∧
    set_root g root (some n2) = none ∧
    set_root g root none = some none ∧
    set_root g root (some n4) = some (some n4.id) := by
  refine ⟨?_, ?_, ?_, ?_⟩
  · simp [set_root, h1]
  · rcases h2 with h2 | h2
    · simp [set_root, h2]
    · simp [set_root, h2]
  · simp [set_root, h3]
  · simp [set_root, h4, h5, h6]

/-- C10 witness: the four behaviours of the root setter at concrete inputs. -/
theorem C10_witness :
    set_root 0 (some 1) (some ⟨1, some 0, true⟩) = none ∧
    set_root 0 (some 1) (some ⟨2, some 9, true⟩) = none ∧
    set_root 0 (some 1) none = some none ∧
    set_root 0 (some 1) (some ⟨3, some 0, true⟩) = some (some 3) :=
  C10_theorem 0 (some 1) (some ⟨1, some 0, true⟩) ⟨2, some 9, true⟩ ⟨3, some 0, true⟩
    (by decide) (by decide) (by decide) (by decide) (by decide) (by decide)

/- ---- C3 : LoopRelation flexible bounds ---- -/

/-- A bound shape the claim calls flexible (open-sided range or wildcard) is
flexible in the source's sense. -/
theorem claim_flexible_is_flexible (c : LoopCond) (h : claim_flexible c = true) :
    is_flexible c = true := by
  cases c <;>
    simp [claim_flexible, is_flexible, is_numeric, is_list_cond, is_wildcard] at h ⊢

/-- On extended bounds, `x ≤ y` excludes `y < x`. -/
theorem EInt.ltB_false_of_leB (x y : EInt) (h : x.leB y = true) :
    y.ltB x = false := by
  cases x <;> cases y <;> first
    | (simp [EInt.leB, EInt.ltB] at h ⊢ ; omega)
    | simp [EInt.leB, EInt.ltB] at h ⊢

/-- C3: for a `LoopRelation` whose bound is a numeric range with an open side
or a wildcard, the iteration reply snapshots the context (`push_context`)
before each iteration; when an iteration fails with `error` at iteration `i`
with `lower < i ≤ upper`, the reply rolls back to the last good iteration
(`pop_context`) and turns forward (`next`), the loop stopping successfully;
when the failing count `j` is not above the lower bound, the reply only drops
the snapshot and clears state, so the `error` direction stays in force; a loop
with a fixed exact count `n` never emits a snapshot, and on error only clears
state. -/
theorem C3_theorem (c : LoopCond) (iA i j n iN : Int)
    (hc : claim_flexible c = true)
    (hlo : (get_bounds c).1.ltB (EInt.fin i) = true)
    (hup : (EInt.fin i).leB (get_bounds c).2 = true)
    (hj : (EInt.fin j).leB (get_bounds c).1 = true) :
    LTok.push_ctx ∈ get_next_iteration_reply c iA ∧
    do_error_general c i = [LTok.next_tok, LTok.pop_ctx, LTok.clear_state] ∧
    do_error_general c j = [LTok.forget_ctx, LTok.clear_state] ∧
    LTok.push_ctx ∉ get_next_iteration_reply (LoopCond.exact n) iN ∧
    do_error_general (LoopCond.exact n) iN = [LTok.clear_state] := by
  have hf : is_flexible c = true := claim_flexible_is_flexible c hc
  refine ⟨?_, ?_, ?_, ?_, ?_⟩
  · simp only [get_next_iteration_reply, hf, if_true]
    split <;> simp
  · simp only [do_error_general, hf, if_true, hlo, hup, Bool.and_self]
    rfl
  · have hnl : (get_bounds c).1.ltB (EInt.fin j) = false :=
      EInt.ltB_false_of_leB _ _ hj
    simp only [do_error_general, hf, if_true, hnl, Bool.false_and]
    rfl
  · have hnf : is_flexible (LoopCond.exact n) = false := rfl
    simp [get_next_iteration_reply, hnf]
  · rfl

/-- C3 witness: the open-ended range `..3` at iterations 1, 2 (failing inside
the bounds) and 0 (failing at the lower bound), and the exact count 5. -/
theorem C3_witness :
    LTok.push_ctx ∈ get_next_iteration_reply (LoopCond.range none (some 3)) 1 ∧
    do_error_general (LoopCond.range none (some 3)) 2 =
      [LTok.next_tok, LTok.pop_ctx, LTok.clear_state] ∧
    do_error_general (LoopCond.range none (some 3)) 0 =
      [LTok.forget_ctx, LTok.clear_state] ∧
    LTok.push_ctx ∉ get_next_iteration_reply (LoopCond.exact 5) 1 ∧
    do_error_general (LoopCond.exact 5) 1 = [LTok.clear_state] :=
  C3_theorem (LoopCond.range none (some 3)) 1 2 0 5 1
    (by decide) (by decide) (by decide) (by decide)

/- ---- C5 : Process.handle step loop ---- -/

/-- C5 counterexample: a dispatch result of the number `0` ends the loop (it
is terminal under Python equality, since `0 == False`), refuting the claim
that any result other than `stop`/`ok`/a boolean terminal/`null`/`true` is
inserted at the front of the current message. -/
theorem C5_counterexample :
    handle_step (RVal.num 0) [] = Sum.inl (RVal.num 0) ∧
    handle_step (RVal.num 0) [] ≠ Sum.inr [RVal.num 0] := by
  refine ⟨rfl, ?_⟩
  intro h
  exact Sum.noConfusion h

/-- C5 (amended): in the `Process.handle` step loop, a dispatch result equal,
under Python equality, to the stop token, the ok token or `False` (so also the
number `0`) ends the loop with that result; a result equal to `null` or `True`
(so also the number `1`) is consumed with no message mutation and the loop
continues; any other result is inserted (a list spliced) at the front of the
current message. -/
theorem C5_theorem (r rt rc ri : RVal) (msg : List RVal)
    (h1 : pyTerminal rt = true)
    (h2 : pyTerminal rc = false) (h3 : pyContinue rc = true)
    (h4 : pyTerminal ri = false) (h5 : pyContinue ri = false) :
    (pyTerminal r = true ↔
       (r = RVal.str "ok" ∨ r = RVal.str "stop" ∨ r = RVal.boolv false ∨
        r = RVal.num 0)) ∧
    (pyContinue r = true ↔
       (r = RVal.none_ ∨ r = RVal.boolv true ∨ r = RVal.num 1)) ∧
    handle_step rt msg = Sum.inl rt ∧
    handle_step rc msg = Sum.inr msg ∧
    handle_step ri msg = Sum.inr (set_message_insert ri msg) := by
  refine ⟨?_, ?_, ?_, ?_, ?_⟩
  · cases r <;> simp [pyTerminal, pyEq]
  · cases r <;> simp [pyContinue, pyEq]
  · simp [handle_step, h1]
  · simp [handle_step, h2, h3]
  · simp [handle_step, h4, h5]

/-- C5 witness: a terminal string, a numeric continue, and a spliced list. -/
theorem C5_witness :
    (pyTerminal (RVal.num 0) = true ↔
       (RVal.num 0 = RVal.str "ok" ∨ RVal.num 0 = RVal.str "stop" ∨
        RVal.num 0 = RVal.boolv false ∨ RVal.num 0 = RVal.num 0)) ∧
    (pyContinue (RVal.num 0) = true ↔
       (RVal.num 0 = RVal.none_ ∨ RVal.num 0 = RVal.boolv true ∨
        RVal.num 0 = RVal.num 1)) ∧
    handle_step (RVal.str "stop") [RVal.str "x"] = Sum.inl (RVal.str "stop") ∧
    handle_step (RVal.num 1) [RVal.str "x"] = Sum.inr [RVal.str "x"] ∧
    handle_step (RVal.listv (RList.cons (RVal.num 7) RList.nil)) [RVal.str "x"] =
      Sum.inr [RVal.num 7, RVal.str "x"] :=
  C5_theorem (RVal.num 0) (RVal.str "stop") (RVal.num 1)
    (RVal.listv (RList.cons (RVal.num 7) RList.nil)) [RVal.str "x"]
    rfl rfl rfl rfl rfl

/- ---- C8 : Condition.check_string ---- -/

/-- Take-length equality characterises being an initial segment. -/
theorem take_eq_iff_initial (p s : List Char) :
    s.take p.length = p ↔ p <+: s := by
  constructor
  · intro h
    refine ⟨s.drop p.length, ?_⟩
    have h2 : p ++ s.drop p.length = s.take p.length ++ s.drop p.length := by rw [h]
    rw [h2, List.take_append_drop]
  · rintro ⟨t, rfl⟩
    exact List.take_left p t

/-- Uppercasing commutes with taking an initial slice. -/
theorem upperIf_take (ic : Bool) (n : Nat) (s : List Char) :
    upperIf ic (s.take n) = (upperIf ic s).take n := by
  cases ic <;> simp [upperIf, List.map_take]

/-- The stored pattern has the original pattern's length. -/
theorem stored_length (p : List Char) (ic : Bool) :
    (stored p ic).length = p.length := by
  cases ic <;> simp [stored, upperIf]

/-- C8 counterexample: with `ignore_case` set, a match returns the uppercased
stored pattern as the matched value, not the pattern as constructed —
`Condition('Ab', ignore_case=True)` against `["abc"]` yields
`(2, 'AB')`, not `(2, 'Ab')`. -/
theorem C8_counterexample :
    check_string ['A', 'b'] true [MTok.strTok ['a', 'b', 'c']] =
      (2, some ['A', 'B']) ∧
    some (['A', 'B'] : List Char) ≠ some ['A', 'b'] := by
  refine ⟨?_, by decide⟩
  rfl

/-- C8 (amended): a literal-string condition's check succeeds iff the message
head is a string that starts with the pattern (compared case-insensitively
when `ignore_case` is set), returning the pattern's length as the rank and the
stored pattern (uppercased when `ignore_case` is set) as the matched value; it
returns `(-1, null)` on a non-matching string head and on a message whose head
is not a string. -/
theorem C8_theorem (p s s2 : List Char) (ic : Bool) (rest rest2 msgN : List MTok)
    (hpre : stored p ic <+: upperIf ic s)
    (hnot : ¬ stored p ic <+: upperIf ic s2)
    (hhead : head_not_string msgN = true) :
    check_string p ic (MTok.strTok s :: rest) =
      ((p.length : Int), some (stored p ic)) ∧
    check_string p ic (MTok.strTok s2 :: rest2) = (-1, none) ∧
    check_string p ic msgN = (-1, none) := by
  have key : ∀ s' : List Char,
      upperIf ic (s'.take p.length) = stored p ic ↔ stored p ic <+: upperIf ic s' := by
    intro s'
    rw [upperIf_take]
    conv_lhs => rw [show p.length = (stored p ic).length from (stored_length p ic).symm]
    exact take_eq_iff_initial (stored p ic) (upperIf ic s')
  refine ⟨?_, ?_, ?_⟩
  · simp only [check_string]
    rw [if_pos ((key s).mpr hpre)]
  · simp only [check_string]
    rw [if_neg (fun hc => hnot ((key s2).mp hc))]
  · match msgN, hhead with
    | [], _ => rfl
    | MTok.intTok _ :: _, _ => rfl
    | MTok.boolTok _ :: _, _ => rfl
    | MTok.noneTok :: _, _ => rfl

/-- C8 witness: the claim's scenario — the pattern `cat` against the message
`["category"]` yields rank 3 and matched value `cat` — together with a
non-matching string head and a non-string head. -/
theorem C8_witness :
    check_string "cat".toList false [MTok.strTok "category".toList] =
      (3, some "cat".toList) ∧
    check_string "cat".toList false [MTok.strTok "dog".toList] = (-1, none) ∧
    check_string "cat".toList false [MTok.intTok 7] = (-1, none) :=
  C8_theorem "cat".toList "category".toList "dog".toList false [] []
    [MTok.intTok 7] (by decide) (by decide) (by decide)

/- ---- C4 : SelectiveNotion best cases ---- -/

/-- The seed is below a left fold of `max`. -/
theorem foldl_max_self_le (l : List Int) (a : Int) : a ≤ List.foldl max a l := by
  induction l generalizing a with
  | nil => exact le_refl a
  | cons x t ih => exact le_trans (le_max_left a x) (ih (max a x))

/-- Every member is below a left fold of `max`. -/
theorem foldl_max_mem_le (l : List Int) (a x : Int) (hx : x ∈ l) :
    x ≤ List.foldl max a l := by
  induction l generalizing a with
  | nil => cases hx
  | cons y t ih =>
    rcases List.mem_cons.mp hx with rfl | hx'
    · exact le_trans (le_max_right a x) (foldl_max_self_le t (max a x))
    · exact ih (max a y) hx'

/-- A left fold of `max` is the seed or a member. -/
theorem foldl_max_cases (l : List Int) (a : Int) :
    List.foldl max a l = a ∨ List.foldl max a l ∈ l := by
  induction l generalizing a with
  | nil => exact Or.inl rfl
  | cons x t ih =>
    rw [List.foldl_cons]
    rcases ih (max a x) with h | h
    · rw [h]
      rcases max_choice a x with h2 | h2
      · exact Or.inl h2
      · exact Or.inr (by rw [h2]; exact List.mem_cons_self x t)
    · exact Or.inr (List.mem_cons_of_mem x h)

/-- Every case kept by the collection loop has a non-negative rank. -/
theorem collect_nonneg (rels : List SRel) (dflt : Option Nat) :
    ∀ x ∈ collect rels dflt, 0 ≤ x.2 := by
  intro x hx
  simp only [collect, List.mem_filterMap] at hx
  obtain ⟨p, hp, hv⟩ := hx
  split at hv
  · cases hv
  · split at hv
    · rename_i hcond
      cases hv
      exact hcond.2
    · cases hv

/-- On a non-empty case list with non-negative head rank, `max_len` is the
fold of `max` seeded at the head's rank. -/
theorem max_len_cons (c : RRes × Int) (t : List (RRes × Int)) (hc : 0 ≤ c.2) :
    max_len (c :: t) = (t.map Prod.snd).foldl max c.2 := by
  unfold max_len
  have h1 : List.foldl (fun m c' => max m c'.2) (-1 : Int) (c :: t)
      = List.foldl max (-1 : Int) ((c :: t).map Prod.snd) := by
    rw [List.foldl_map]
  rw [h1, List.map_cons, List.foldl_cons,
    max_eq_right (show (-1 : Int) ≤ c.2 by omega)]

/-- The two-pass computation of `get_best_cases` (running `max_len`, filter,
default fallback) agrees with the specification's description via `max?`,
whenever the ranks in the case list are non-negative. -/
theorem best_general (cs : List (RRes × Int)) (dflt : Option Nat)
    (hnn : ∀ x ∈ cs, 0 ≤ x.2) :
    (if ((cs.filter (fun c => c.2 = max_len cs)).map
          (fun c => BCase.caseRes c.1)).isEmpty && dflt.isSome then
       [BCase.defaultCase]
     else (cs.filter (fun c => c.2 = max_len cs)).map (fun c => BCase.caseRes c.1)) =
    (match (cs.map Prod.snd).max? with
     | none => if dflt.isSome then [BCase.defaultCase] else []
     | some M => (cs.filter (fun c => c.2 = M)).map (fun c => BCase.caseRes c.1)) := by
  cases cs with
  | nil => cases dflt <;> simp
  | cons c t =>
    have hc2 : 0 ≤ c.2 := hnn c (List.mem_cons_self c t)
    have hmax : ((c :: t).map Prod.snd).max? = some (max_len (c :: t)) := by
      rw [List.map_cons]
      show some ((t.map Prod.snd).foldl max c.2) = some (max_len (c :: t))
      rw [max_len_cons c t hc2]
    rw [hmax]
    have hattain : ∃ x ∈ c :: t, x.2 = max_len (c :: t) := by
      rw [max_len_cons c t hc2]
      rcases foldl_max_cases (t.map Prod.snd) c.2 with h | h
      · exact ⟨c, List.mem_cons_self c t, h.symm⟩
      · obtain ⟨x, hx, hxeq⟩ := List.mem_map.mp h
        exact ⟨x, List.mem_cons_of_mem c hx, hxeq⟩
    obtain ⟨x, hx, hxeq⟩ := hattain
    have hmem : x ∈ (c :: t).filter (fun c' => c'.2 = max_len (c :: t)) :=
      List.mem_filter.mpr ⟨hx, by simp [hxeq]⟩
    cases hh : (c :: t).filter (fun c' => c'.2 = max_len (c :: t)) with
    | nil => rw [hh] at hmem; cases hmem
    | cons b bs =>
      simp [hh]

/-- When the collection loop keeps nothing, `get_best_cases` is the default
relation if one is set, else empty. -/
theorem get_best_cases_nil (rels : List SRel) (dflt : Option Nat)
    (h : collect rels dflt = []) :
    get_best_cases rels dflt = (if dflt.isSome then [BCase.defaultCase] else []) := by
  simp only [get_best_cases]
  rw [h]
  cases dflt <;> simp

/-- C4: for a `SelectiveNotion` with more than one owned relation, forward
traversal evaluates every owned relation's condition except the designated
default and keeps exactly the subset of non-error results tied at the maximum
rank `≥ 0`, in registration order (`get_best_cases` equals the specification's
description); when that subset is empty the default relation is used if one is
set, and otherwise the traversal answers the error token. -/
theorem C4_theorem (rels relsE relsD : List SRel) (dflt : Option Nat) (j : Nat)
    (hE : 2 ≤ relsE.length) (hD : 2 ≤ relsD.length)
    (hcE : collect relsE none = []) (hcD : collect relsD (some j) = []) :
    get_best_cases rels dflt = best_cases_spec rels dflt ∧
    do_forward relsE none = SReply.errorTok ∧
    do_forward relsD (some j) = SReply.oneCase BCase.defaultCase := by
  refine ⟨?_, ?_, ?_⟩
  · exact best_general (collect rels dflt) dflt (collect_nonneg rels dflt)
  · cases relsE with
    | nil => simp at hE
    | cons a r =>
      cases r with
      | nil => simp at hE
      | cons b t =>
        have h0 : get_best_cases (a :: b :: t) none = [] := by
          rw [get_best_cases_nil _ _ hcE]
          rfl
        simp only [do_forward, h0]
  · cases relsD with
    | nil => simp at hD
    | cons a r =>
      cases r with
      | nil => simp at hD
      | cons b t =>
        have h0 : get_best_cases (a :: b :: t) (some j) = [BCase.defaultCase] := by
          rw [get_best_cases_nil _ _ hcD]
          rfl
        simp only [do_forward, h0]

/-- C4 witness: a mixed relation list (code equals spec), two relations that
all fail with no default (error token), and a default used when nothing
ranks. -/
theorem C4_witness :
    get_best_cases
        [⟨RRes.val 1, 1⟩, ⟨RRes.errorTok, 5⟩, ⟨RRes.val 2, 2⟩, ⟨RRes.val 3, 2⟩] none =
      best_cases_spec
        [⟨RRes.val 1, 1⟩, ⟨RRes.errorTok, 5⟩, ⟨RRes.val 2, 2⟩, ⟨RRes.val 3, 2⟩] none ∧
    do_forward [⟨RRes.errorTok, 3⟩, ⟨RRes.val 9, -1⟩] none = SReply.errorTok ∧
    do_forward [⟨RRes.val 0, -1⟩, ⟨RRes.val 1, 1⟩] (some 1) =
      SReply.oneCase BCase.defaultCase :=
  C4_theorem [⟨RRes.val 1, 1⟩, ⟨RRes.errorTok, 5⟩, ⟨RRes.val 2, 2⟩, ⟨RRes.val 3, 2⟩]
    [⟨RRes.errorTok, 3⟩, ⟨RRes.val 9, -1⟩] [⟨RRes.val 0, -1⟩, ⟨RRes.val 1, 1⟩]
    none 1 (by decide) (by decide) (by decide) (by decide)

/- ---- C2 : Handler.handle dispatch ---- -/

/-- One selection step never lowers the running rank. -/
theorem selStep_fst_le {μ : Type} (m : μ) (acc : Int × Option (HPair μ))
    (e : HPair μ) : acc.1 ≤ (selStep m acc e).1 := by
  unfold selStep
  split
  · rename_i h
    exact le_of_lt h
  · exact le_refl _

/-- The running rank is monotone along the selection fold. -/
theorem foldl_selStep_fst_mono {μ : Type} (m : μ) (l : List (HPair μ))
    (acc : Int × Option (HPair μ)) :
    acc.1 ≤ (List.foldl (selStep m) acc l).1 := by
  induction l generalizing acc with
  | nil => exact le_refl _
  | cons e t ih =>
    rw [List.foldl_cons]
    exact le_trans (selStep_fst_le m acc e) (ih _)

/-- Every processed pair's rank is bounded by the final running rank. -/
theorem foldl_selStep_rank_le {μ : Type} (m : μ) (l : List (HPair μ))
    (acc : Int × Option (HPair μ)) :
    ∀ e ∈ l, e.rank m ≤ (List.foldl (selStep m) acc l).1 := by
  induction l generalizing acc with
  | nil => intro e he; cases he
  | cons x t ih =>
    intro e he
    rw [List.foldl_cons]
    rcases List.mem_cons.mp he with rfl | he'
    · have h1 : e.rank m ≤ (selStep m acc e).1 := by
        unfold selStep
        split
        · exact le_refl _
        · rename_i h
          omega
      exact le_trans h1 (foldl_selStep_fst_mono m t _)
    · exact ih _ e he'

/-- Once an event is selected, some event stays selected. -/
theorem foldl_selStep_some_persists {μ : Type} (m : μ) (l : List (HPair μ))
    (acc : Int × Option (HPair μ)) (e0 : HPair μ) (h : acc.2 = some e0) :
    ∃ e, (List.foldl (selStep m) acc l).2 = some e := by
  induction l generalizing acc e0 with
  | nil => exact ⟨e0, h⟩
  | cons x t ih =>
    rw [List.foldl_cons]
    by_cases hx : x.rank m > acc.1
    · exact ih (selStep m acc x) x (by simp [selStep, hx])
    · exact ih (selStep m acc x) e0 (by simp [selStep, hx, h])

/-- If no event got selected, the accumulator never moved and every rank is
bounded by the initial one. -/
theorem foldl_selStep_none {μ : Type} (m : μ) (l : List (HPair μ))
    (acc : Int × Option (HPair μ)) (hn : acc.2 = none)
    (h : (List.foldl (selStep m) acc l).2 = none) :
    List.foldl (selStep m) acc l = acc ∧ ∀ e ∈ l, e.rank m ≤ acc.1 := by
  induction l generalizing acc with
  | nil => exact ⟨rfl, by intro e he; cases he⟩
  | cons x t ih =>
    rw [List.foldl_cons] at h ⊢
    by_cases hx : x.rank m > acc.1
    · exfalso
      obtain ⟨e, he⟩ :=
        foldl_selStep_some_persists m t (selStep m acc x) x (by simp [selStep, hx])
      rw [he] at h
      cases h
    · have hs : selStep m acc x = acc := by simp [selStep, hx]
      rw [hs] at h ⊢
      obtain ⟨h1, h2⟩ := ih acc hn h
      refine ⟨h1, ?_⟩
      intro e he
      rcases List.mem_cons.mp he with rfl | he'
      · omega
      · exact h2 e he'

/-- The fold does not move once every rank is bounded by the running one. -/
theorem foldl_selStep_stay {μ : Type} (m : μ) (l : List (HPair μ))
    (acc : Int × Option (HPair μ)) (h : ∀ e ∈ l, e.rank m ≤ acc.1) :
    List.foldl (selStep m) acc l = acc := by
  induction l generalizing acc with
  | nil => rfl
  | cons x t ih =>
    rw [List.foldl_cons]
    have hx : ¬ x.rank m > acc.1 := by
      have := h x (List.mem_cons_self x t)
      omega
    rw [show selStep m acc x = acc from by simp [selStep, hx]]
    exact ih acc (fun e he => h e (List.mem_cons_of_mem x he))

/-- A selected event forces a non-negative final rank (from the `-1` start). -/
theorem foldl_selStep_pos {μ : Type} (m : μ) (l : List (HPair μ))
    (acc : Int × Option (HPair μ)) (hn : acc.2 = none) (h1 : acc.1 = -1)
    (e : HPair μ) (h : (List.foldl (selStep m) acc l).2 = some e) :
    0 ≤ (List.foldl (selStep m) acc l).1 := by
  induction l generalizing acc with
  | nil =>
    rw [List.foldl_nil] at h
    rw [hn] at h
    cases h
  | cons x t ih =>
    rw [List.foldl_cons] at h ⊢
    by_cases hx : x.rank m > acc.1
    · have h2 : 0 ≤ (selStep m acc x).1 := by
        simp only [selStep, hx, if_pos]
        omega
      exact le_trans h2 (foldl_selStep_fst_mono m t _)
    · rw [show selStep m acc x = acc from by simp [selStep, hx]] at h ⊢
      exact ih acc hn h1 h

/-- The fold selects the first pair whose rank reaches the final rank,
whenever the final rank strictly exceeds the initial one. -/
theorem foldl_selStep_find {μ : Type} (m : μ) (l : List (HPair μ)) :
    ∀ (acc : Int × Option (HPair μ)) (R : Int) (sel : Option (HPair μ)),
      List.foldl (selStep m) acc l = (R, sel) → acc.1 < R →
      sel = l.find? (fun x => decide (R ≤ x.rank m)) := by
  induction l with
  | nil =>
    intro acc R sel h hlt
    rw [List.foldl_nil] at h
    rw [h] at hlt
    simp at hlt
  | cons x t ih =>
    intro acc R sel h hlt
    rw [List.foldl_cons] at h
    by_cases hx : R ≤ x.rank m
    · have hxle : x.rank m ≤ R := by
        have h2 := foldl_selStep_rank_le m (x :: t) acc x (List.mem_cons_self x t)
        rw [List.foldl_cons, h] at h2
        exact h2
      have hxR : x.rank m = R := le_antisymm hxle hx
      have hax : selStep m acc x = (R, some x) := by
        unfold selStep
        rw [if_pos (by omega)]
        rw [hxR]
      rw [hax] at h
      have hstay : List.foldl (selStep m) (R, some x) t = (R, some x) := by
        apply foldl_selStep_stay
        intro e he
        have h3 := foldl_selStep_rank_le m t (R, some x) e he
        rw [h] at h3
        exact h3
      rw [hstay] at h
      have hsel : sel = some x := by
        have := congrArg Prod.snd h
        simpa using this.symm
      rw [hsel]
      simp [List.find?, hx]
    · have hgap : (selStep m acc x).1 < R := by
        unfold selStep
        split
        · simpa using lt_of_not_le hx
        · simpa using hlt
      rw [ih (selStep m acc x) R sel h hgap]
      simp [List.find?, hx]

/-- C2: for every `Handler.handle` call, the event that runs is one whose
condition returned the maximal rank among the currently active (tag-filtered)
condition/event pairs; among pairs tied at that maximal rank the
earliest-registered one is selected (it is the first active pair whose rank
reaches the maximum); and when every active rank is negative no registered
event runs — the unknown fallback runs if present, else the no-match sentinel
is returned. -/
theorem C2_theorem {μ : Type} (tags : List String) (events : List (HPair μ))
    (hasUnknown : Bool) (m : μ) (R : Int) (sel : Option (HPair μ))
    (h : handleSelect (update_events tags events) m = (R, sel)) :
    (∀ e ∈ update_events tags events, e.rank m ≤ R) ∧
    (∀ e, sel = some e →
      0 ≤ R ∧ e.rank m = R ∧
      (update_events tags events).find? (fun x => decide (R ≤ x.rank m)) = some e ∧
      handle tags events hasUnknown m = HRes.ran e) ∧
    (sel = none →
      (∀ e ∈ update_events tags events, e.rank m < 0) ∧ R = -1 ∧
      handle tags events hasUnknown m =
        (if hasUnknown then HRes.ranUnknown else HRes.noMatch)) ∧
    ((∀ e ∈ update_events tags events, e.rank m < 0) →
      sel = none ∧
      handle tags events hasUnknown m =
        (if hasUnknown then HRes.ranUnknown else HRes.noMatch)) := by
  have A1 : ∀ e ∈ update_events tags events, e.rank m ≤ R := by
    intro e he
    have h2 := foldl_selStep_rank_le m (update_events tags events) (-1, none) e he
    rw [show List.foldl (selStep m) (-1, none) (update_events tags events)
        = handleSelect (update_events tags events) m from rfl, h] at h2
    exact h2
  have A2 : ∀ e, sel = some e →
      0 ≤ R ∧ e.rank m = R ∧
      (update_events tags events).find? (fun x => decide (R ≤ x.rank m)) = some e ∧
      handle tags events hasUnknown m = HRes.ran e := by
    intro e hsel
    have hpos : 0 ≤ R := by
      have h2 := foldl_selStep_pos m (update_events tags events) (-1, none)
        rfl rfl e (by rw [show List.foldl (selStep m) (-1, none)
          (update_events tags events)
          = handleSelect (update_events tags events) m from rfl, h, hsel])
      rw [show List.foldl (selStep m) (-1, none) (update_events tags events)
        = handleSelect (update_events tags events) m from rfl, h] at h2
      exact h2
    have hfind : sel = (update_events tags events).find?
        (fun x => decide (R ≤ x.rank m)) :=
      foldl_selStep_find m (update_events tags events) (-1, none) R sel h
        (by omega)
    have hfind2 : (update_events tags events).find?
        (fun x => decide (R ≤ x.rank m)) = some e := by rw [← hfind, hsel]
    have hmem : e ∈ update_events tags events := List.mem_of_find?_eq_some hfind2
    have hle : R ≤ e.rank m := by
      have := List.find?_some hfind2
      simpa using this
    have hge : e.rank m ≤ R := by
      have h2 := foldl_selStep_rank_le m (update_events tags events) (-1, none) e hmem
      rw [show List.foldl (selStep m) (-1, none) (update_events tags events)
        = handleSelect (update_events tags events) m from rfl, h] at h2
      exact h2
    refine ⟨hpos, le_antisymm hge hle, hfind2, ?_⟩
    unfold handle
    rw [h]
    simp only [hsel]
    rw [if_pos hpos]
  have A3 : sel = none →
      (∀ e ∈ update_events tags events, e.rank m < 0) ∧ R = -1 ∧
      handle tags events hasUnknown m =
        (if hasUnknown then HRes.ranUnknown else HRes.noMatch) := by
    intro hnone
    obtain ⟨heq, hb⟩ := foldl_selStep_none m (update_events tags events)
      (-1, none) rfl (by rw [show List.foldl (selStep m) (-1, none)
        (update_events tags events)
        = handleSelect (update_events tags events) m from rfl, h, hnone])
    have hR : R = -1 := by
      have := congrArg Prod.fst heq
      rw [show List.foldl (selStep m) (-1, none) (update_events tags events)
        = handleSelect (update_events tags events) m from rfl, h] at this
      simpa using this
    refine ⟨?_, hR, ?_⟩
    · intro e he
      have := hb e he
      omega
    · unfold handle
      rw [h]
      simp only [hnone]
      rw [if_neg (by omega)]
  refine ⟨A1, A2, A3, ?_⟩
  intro hneg
  cases hsel2 : sel with
  | none => exact ⟨rfl, (A3 hsel2).2.2⟩
  | some e =>
    exfalso
    obtain ⟨hpos, herank, hfind2, _⟩ := A2 e hsel2
    have hmem := List.mem_of_find?_eq_some hfind2
    have := hneg e hmem
    omega

/-- C2 witness: among active pairs with ranks 1, 2, 2 (and a tag-filtered
pair), the first rank-2 pair runs; its rank is maximal. -/
theorem C2_witness :
    0 ≤ (2 : Int) ∧
    (HPair.mk ([] : List String) (fun _ => (2 : Int)) 2).rank () = 2 ∧
    (update_events [] [HPair.mk [] (fun _ => (1 : Int)) 1,
        HPair.mk [] (fun _ => (2 : Int)) 2,
        HPair.mk [] (fun _ => (2 : Int)) 3,
        HPair.mk ["off"] (fun _ => (9 : Int)) 4]).find?
      (fun x => decide ((2 : Int) ≤ x.rank ())) =
        some (HPair.mk [] (fun _ => (2 : Int)) 2) ∧
    handle [] [HPair.mk [] (fun _ => (1 : Int)) 1,
        HPair.mk [] (fun _ => (2 : Int)) 2,
        HPair.mk [] (fun _ => (2 : Int)) 3,
        HPair.mk ["off"] (fun _ => (9 : Int)) 4] true () =
      HRes.ran (HPair.mk [] (fun _ => (2 : Int)) 2) :=
  (C2_theorem [] [HPair.mk [] (fun _ => (1 : Int)) 1,
      HPair.mk [] (fun _ => (2 : Int)) 2,
      HPair.mk [] (fun _ => (2 : Int)) 3,
      HPair.mk ["off"] (fun _ => (9 : Int)) 4] true () 2
      (some (HPair.mk [] (fun _ => (2 : Int)) 2)) rfl).2.1
    (HPair.mk [] (fun _ => (2 : Int)) 2) rfl

/- ---- C1 : DictChangeGroup rollback ---- -/

/-- Lookup after `del`: the deleted key reads `none`, others unchanged. -/
theorem dlookup_derase (k k' : String) (d : Dict) :
    dlookup (derase k d) k' = if k = k' then none else dlookup d k' := by
  induction d with
  | nil => simp [derase, dlookup]
  | cons a t ih =>
    obtain ⟨ka, va⟩ := a
    by_cases hak : ka = k
    · have h1 : derase k ((ka, va) :: t) = derase k t := by
        simp [derase, List.filter_cons, hak]
      rw [h1, ih]
      by_cases hkk : k = k'
      · rw [if_pos hkk, if_pos hkk]
      · rw [if_neg hkk, if_neg hkk]
        have ha' : ka ≠ k' := by rw [hak]; exact hkk
        rw [show dlookup ((ka, va) :: t) k'
            = if ka = k' then some va else dlookup t k' from rfl, if_neg ha']
    · have h1 : derase k ((ka, va) :: t) = (ka, va) :: derase k t := by
        simp [derase, List.filter_cons, hak]
      rw [h1]
      rw [show dlookup ((ka, va) :: derase k t) k'
          = if ka = k' then some va else dlookup (derase k t) k' from rfl]
      rw [show dlookup ((ka, va) :: t) k'
          = if ka = k' then some va else dlookup t k' from rfl]
      by_cases hka' : ka = k'
      · rw [if_pos hka', if_pos hka']
        have hkk : k ≠ k' := by
          intro hh
          exact hak (by rw [hka', hh])
        rw [if_neg (fun hh => hkk hh)]
      · rw [if_neg hka', if_neg hka', ih]

/-- Lookup after assignment: the assigned key reads the new value, others
unchanged. -/
theorem dlookup_dset (k k' : String) (v : Int) (d : Dict) :
    dlookup (dset k v d) k' = if k = k' then some v else dlookup d k' := by
  unfold dset
  rw [show dlookup ((k, v) :: derase k d) k'
      = if k = k' then some v else dlookup (derase k d) k' from rfl]
  by_cases hkk : k = k'
  · rw [if_pos hkk, if_pos hkk]
  · rw [if_neg hkk, if_neg hkk, dlookup_derase, if_neg hkk]

/-- Re-assigning a key overrides the previous assignment pointwise. -/
theorem dset_dset (k : String) (a b : Int) (d : Dict) (k' : String) :
    dlookup (dset k a (dset k b d)) k' = dlookup (dset k a d) k' := by
  rw [dlookup_dset, dlookup_dset, dlookup_dset]
  by_cases hkk : k = k'
  · rw [if_pos hkk, if_pos hkk]
  · rw [if_neg hkk, if_neg hkk, if_neg hkk]

/-- `undo` of one operation respects pointwise equality of dicts. -/
theorem undoOp_congr (op : Op) (d1 d2 : Dict)
    (h : ∀ k', dlookup d1 k' = dlookup d2 k') :
    ∀ k', dlookup (undoOp op d1) k' = dlookup (undoOp op d2) k' := by
  intro k'
  cases htype : op.type with
  | add =>
    simp only [undoOp, htype]
    rw [dlookup_derase, dlookup_derase]
    by_cases hk : op.key = k'
    · rw [if_pos hk, if_pos hk]
    · rw [if_neg hk, if_neg hk]
      exact h k'
  | set =>
    simp only [undoOp, htype]
    rw [dlookup_dset, dlookup_dset]
    by_cases hk : op.key = k'
    · rw [if_pos hk, if_pos hk]
    · rw [if_neg hk, if_neg hk]
      exact h k'
  | delete =>
    simp only [undoOp, htype]
    rw [dlookup_dset, dlookup_dset]
    by_cases hk : op.key = k'
    · rw [if_pos hk, if_pos hk]
    · rw [if_neg hk, if_neg hk]
      exact h k'

/-- Undoing a list of operations respects pointwise equality of dicts. -/
theorem undoList_congr (ops : List Op) (d1 d2 : Dict)
    (h : ∀ k', dlookup d1 k' = dlookup d2 k') :
    ∀ k', dlookup (undoList ops d1) k' = dlookup (undoList ops d2) k' := by
  induction ops generalizing d1 d2 with
  | nil => exact h
  | cons op t ih => exact ih (undoOp op d1) (undoOp op d2) (undoOp_congr op d1 d2 h)

/-- A successfully done operation undoes itself pointwise, provided an `add`
hit an absent key. -/
theorem undoOp_doOp (op op2 : Op) (d d2 : Dict)
    (hfresh : op.type = OpType.add → dlookup d op.key = none)
    (h : doOp op d = some (op2, d2)) :
    ∀ k', dlookup (undoOp op2 d2) k' = dlookup d k' := by
  intro k'
  unfold doOp at h
  by_cases hconv : op.type = OpType.set ∧ dlookup d op.key = none
  · rw [if_pos hconv] at h
    injection h with h1
    injection h1 with ha hb
    subst ha
    subst hb
    simp only [undoOp]
    rw [dlookup_derase]
    by_cases hk : op.key = k'
    · rw [if_pos hk, ← hk]
      exact hconv.2.symm
    · rw [if_neg hk, dlookup_dset, if_neg hk]
  · rw [if_neg hconv] at h
    cases htype : op.type with
    | add =>
      simp only [htype] at h
      injection h with h1
      injection h1 with ha hb
      subst ha
      subst hb
      have habs : dlookup d op.key = none := hfresh htype
      simp only [undoOp, htype]
      rw [dlookup_derase]
      by_cases hk : op.key = k'
      · rw [if_pos hk, ← hk]
        exact habs.symm
      · rw [if_neg hk, dlookup_dset, if_neg hk]
    | set =>
      simp only [htype] at h
      cases hov : dlookup d op.key with
      | none => exact absurd ⟨htype, hov⟩ hconv
      | some ov =>
        rw [hov] at h
        injection h with h1
        injection h1 with ha hb
        subst ha
        subst hb
        simp only [undoOp, htype]
        rw [show (Option.some ov).getD 0 = ov from rfl]
        rw [dset_dset, dlookup_dset]
        by_cases hk : op.key = k'
        · rw [if_pos hk, ← hk]
          exact hov.symm
        · rw [if_neg hk]
    | delete =>
      simp only [htype] at h
      cases hov : dlookup d op.key with
      | none =>
        rw [hov] at h
        cases h
      | some ov =>
        rw [hov] at h
        injection h with h1
        injection h1 with ha hb
        subst ha
        subst hb
        simp only [undoOp, htype]
        rw [show (Option.some ov).getD 0 = ov from rfl]
        rw [dlookup_dset]
        by_cases hk : op.key = k'
        · rw [if_pos hk, ← hk]
          exact hov.symm
        · rw [if_neg hk, dlookup_derase, if_neg hk]

/-- Appending a self-undoing operation preserves the rollback property. -/
theorem unwinds_append (stack : List Op) (op2 : Op) (d d2 d0 : Dict)
    (hself : ∀ k', dlookup (undoOp op2 d2) k' = dlookup d k')
    (hu : ∀ k, dlookup (undoGroup stack d) k = dlookup d0 k) :
    ∀ k, dlookup (undoGroup (stack ++ [op2]) d2) k = dlookup d0 k := by
  intro k
  unfold undoGroup
  rw [show (stack ++ [op2]).reverse = op2 :: stack.reverse by simp]
  rw [show undoList (op2 :: stack.reverse) d2
      = undoList stack.reverse (undoOp op2 d2) from rfl]
  rw [undoList_congr stack.reverse (undoOp op2 d2) d hself k]
  exact hu k

/-- One `DictChangeGroup.add` step preserves the rollback property, provided
an `add` hits an absent key. -/
theorem groupAdd_unwinds (stack : List Op) (op : Op) (d d0 : Dict)
    (s2 : List Op) (d2 : Dict)
    (hfresh : op.type = OpType.add → dlookup d op.key = none)
    (h : groupAdd stack op d = some (s2, d2))
    (hu : ∀ k, dlookup (undoGroup stack d) k = dlookup d0 k) :
    ∀ k, dlookup (undoGroup s2 d2) k = dlookup d0 k := by
  cases hdo : doOp op d with
  | none =>
    simp only [groupAdd, hdo] at h
    exact Option.noConfusion h
  | some p =>
    obtain ⟨op2, dn⟩ := p
    rcases List.eq_nil_or_concat stack with rfl | ⟨l, top, rfl⟩
    · simp only [groupAdd, hdo, List.getLast?_nil] at h
      injection h with h1
      injection h1 with ha hb
      subst hb
      rw [← ha]
      exact unwinds_append [] op2 d dn d0 (undoOp_doOp op op2 d dn hfresh hdo) hu
    · rw [List.concat_eq_append] at h hu
      by_cases hm : canMerge top op = true
      · simp only [groupAdd, hdo, List.getLast?_concat, hm, if_true,
          List.dropLast_concat] at h
        injection h with h1
        injection h1 with ha hb
        subst hb
        rw [← ha]
        obtain ⟨hmt, hmo, hmk⟩ : top.type = OpType.set ∧ op.type = OpType.set ∧
            top.key = op.key := by simpa [canMerge] using hm
        have hdn : dn = dset op.key op.value d := by
          unfold doOp at hdo
          by_cases hconv : op.type = OpType.set ∧ dlookup d op.key = none
          · rw [if_pos hconv] at hdo
            injection hdo with h2
            injection h2 with _ hb2
            exact hb2.symm
          · rw [if_neg hconv] at hdo
            simp only [hmo] at hdo
            cases hov : dlookup d op.key with
            | none => exact absurd ⟨hmo, hov⟩ hconv
            | some ov =>
              rw [hov] at hdo
              injection hdo with h2
              injection h2 with _ hb2
              exact hb2.symm
        subst hdn
        intro k
        have key : ∀ k', dlookup (undoOp { top with value := op.value }
            (dset op.key op.value d)) k' = dlookup (undoOp top d) k' := by
          intro k'
          simp only [undoOp, hmt]
          rw [hmk]
          exact dset_dset op.key (top.old.getD 0) op.value d k'
        have h1 := undoList_congr l.reverse _ _ key
        unfold undoGroup
        simp only [List.reverse_append, List.reverse_singleton,
          List.singleton_append]
        show dlookup (undoList l.reverse (undoOp { top with value := op.value }
          (dset op.key op.value d))) k = dlookup d0 k
        rw [h1 k]
        have h2 := hu k
        unfold undoGroup at h2
        simp only [List.reverse_append, List.reverse_singleton,
          List.singleton_append] at h2
        exact h2
      · have hm2 : canMerge top op = false := by
          revert hm
          cases canMerge top op <;> simp
        simp only [groupAdd, hdo, List.getLast?_concat, hm2,
          Bool.false_eq_true, if_false] at h
        injection h with h1
        injection h1 with ha hb
        subst hb
        rw [← ha]
        exact unwinds_append (l ++ [top]) op2 d dn d0
          (undoOp_doOp op op2 d dn hfresh hdo) hu

/-- Running a valid edit sequence through the group preserves the rollback
property all the way. -/
theorem runGroup_unwinds (es : List Edit) :
    ∀ (d : Dict) (stack : List Op) (d0 : Dict),
      editsOkFrom d stack es = true →
      (∀ k, dlookup (undoGroup stack d) k = dlookup d0 k) →
      ∃ s2 d2, runGroup d stack es = some (s2, d2) ∧
        ∀ k, dlookup (undoGroup s2 d2) k = dlookup d0 k := by
  induction es with
  | nil =>
    intro d stack d0 _ hu
    exact ⟨stack, d, rfl, hu⟩
  | cons e rest ih =>
    intro d stack d0 hok hu
    obtain ⟨t, k, v⟩ := e
    rw [show editsOkFrom d stack ((t, k, v) :: rest)
        = ((decide (t ≠ OpType.add) || (dlookup d k).isNone) &&
           (match groupAdd stack (mkOp t k v) d with
            | some (s2, d2) => editsOkFrom d2 s2 rest
            | none => false)) from rfl] at hok
    rw [Bool.and_eq_true] at hok
    obtain ⟨hfresh0, hrest0⟩ := hok
    cases hga : groupAdd stack (mkOp t k v) d with
    | none =>
      rw [hga] at hrest0
      cases hrest0
    | some p =>
      obtain ⟨s1, d1⟩ := p
      rw [hga] at hrest0
      have hfresh : (mkOp t k v).type = OpType.add →
          dlookup d (mkOp t k v).key = none := by
        intro ht
        rw [show (mkOp t k v).type = t from rfl] at ht
        subst ht
        rw [Bool.or_eq_true] at hfresh0
        rcases hfresh0 with hleft | hright
        · simp at hleft
        · exact Option.isNone_iff_eq_none.mp hright
      have hu1 := groupAdd_unwinds stack (mkOp t k v) d d0 s1 d1 hfresh hga hu
      obtain ⟨s2, d2, hrun, hu2⟩ := ih d1 s1 d0 hrest0 hu1
      refine ⟨s2, d2, ?_, hu2⟩
      rw [show runGroup d stack ((t, k, v) :: rest)
          = (match groupAdd stack (mkOp t k v) d with
             | some (s2, d2) => runGroup d2 s2 rest
             | none => none) from rfl, hga]
      exact hrun

/-- C1 counterexample: an `add` edit on an already-present key is undone by
deleting the key, not by restoring its old value — on the dict `{a: 0}` the
group `[add a 1]` undoes to a dict without `a`, while the pre-group value was
`0`; do-then-undo is not the identity on the mapping. -/
theorem C1_counterexample :
    runGroup [("a", 0)] [] [(OpType.add, "a", 1)] =
      some ([⟨OpType.add, "a", 1, none⟩], [("a", 1)]) ∧
    dlookup (undoGroup [⟨OpType.add, "a", 1, none⟩] [("a", 1)]) "a" = none ∧
    dlookup [("a", 0)] "a" = some 0 := by
  decide

/-- C1 (amended): for every mapping and every transaction group built by
`DictChangeGroup.add` from add/set/delete edits in which every `add` edit
targets a key absent at the time of the edit (and every `delete` a present
key, which the operation itself enforces), undoing the group restores every
key of the mapping to its pre-group value: keys newly created inside the group
are removed, and keys overwritten several times inside the group are restored
to the pre-group value, not an intermediate one — do-then-undo is the identity
on the mapping. -/
theorem C1_theorem (d : Dict) (es : List Edit)
    (h : editsOkFrom d [] es = true) :
    (runGroup d [] es).isSome = true ∧
    ∀ s2 d2, runGroup d [] es = some (s2, d2) →
      ∀ k, dlookup (undoGroup s2 d2) k = dlookup d k := by
  obtain ⟨s2, d2, hrun, hu⟩ := runGroup_unwinds es d [] d h (fun _ => rfl)
  constructor
  · rw [hrun]
    rfl
  · intro s' d' h' k
    rw [hrun] at h'
    injection h' with h2
    injection h2 with ha hb
    subst ha
    subst hb
    exact hu k

/-- C1 witness: on the dict `{x: 5}`, the valid group
`[set x 7, set x 9, delete x, add x 3]` (two merging sets, a delete, and an
add on the then-absent key) undoes back to `x = 5`, the pre-group value. -/
theorem C1_witness :
    editsOkFrom [("x", 5)] []
      [(OpType.set, "x", 7), (OpType.set, "x", 9), (OpType.delete, "x", 0),
       (OpType.add, "x", 3)] = true ∧
    (runGroup [("x", 5)] []
      [(OpType.set, "x", 7), (OpType.set, "x", 9), (OpType.delete, "x", 0),
       (OpType.add, "x", 3)]).isSome = true ∧
    dlookup (undoGroup
      [⟨OpType.set, "x", 9, some 5⟩, ⟨OpType.delete, "x", 0, some 9⟩,
       ⟨OpType.add, "x", 3, none⟩] [("x", 3)]) "x" = some 5 := by
  have h := C1_theorem [("x", 5)]
    [(OpType.set, "x", 7), (OpType.set, "x", 9), (OpType.delete, "x", 0),
     (OpType.add, "x", 3)] (by decide)
  refine ⟨by decide, h.1, ?_⟩
  have h2 := h.2 [⟨OpType.set, "x", 9, some 5⟩, ⟨OpType.delete, "x", 0, some 9⟩,
      ⟨OpType.add, "x", 3, none⟩] [("x", 3)] (by decide) "x"
  rw [h2]
  decide
